import Mathlib

/-!
Verification of the multiplicative-update NMF engine in `models.py`.

Tensors are embedded as real matrices (`Matrix (Fin b) (Fin w) ℝ`), one row per
block of the `nn.ParameterList` (each block has shape `(1, width)` in the
source).  Machine floats are modelled by exact reals; the autodiff gradient and
the external `beta_divergence` loss (the module `metrics` is not part of the
repository sources) are abstracted as parameters: the gradient of each
iteration is an arbitrary matrix, and the normalized loss recorded at each
iteration is an arbitrary real sequence.  Python's `UnboundLocalError` paths in
`fit` are modelled with `Except`.
-/

noncomputable section

/-- Elementwise `F.relu`: clamp at zero. -/
def relu (x : ℝ) : ℝ := max x 0

/-- Model of `_mu_update` (models.py lines 7-35) on an `nn.ParameterList` of `b` blocks,
each a row of width `w`.  The gradient row of a block with
`requires_grad = False` is replaced by zeros (line 9); the numerator
`relu(pos - grad)` is computed from the original `pos` (line 15); `l1_reg` is
added to the denominator only when strictly positive (lines 16-17), likewise
`l2_reg * param` (lines 18-26, elementwise after broadcasting); the ratio is
raised to `gamma` unless `gamma = 1` (lines 29-30); finally every block row,
fixed blocks included, is multiplied in place by its slice of the multiplier
(lines 31-33). -/
def muUpdateList {b w : ℕ} (param : Matrix (Fin b) (Fin w) ℝ) (rg : Fin b → Bool)
    (grad pos : Matrix (Fin b) (Fin w) ℝ) (gamma l1 l2 : ℝ) :
    Matrix (Fin b) (Fin w) ℝ :=
  Matrix.of fun i j =>
    let g := if rg i then grad i j else 0
    let num := relu (pos i j - g)
    let den := pos i j + (if 0 < l1 then l1 else 0) + (if 0 < l2 then l2 * param i j else 0)
    let r := num / den
    param i j * (if gamma ≠ 1 then r ^ gamma else r)

/-- Model of `_mu_update` on a single tensor (not a `ParameterList`): when the tensor has
no gradient the function returns immediately and the tensor is untouched
(models.py lines 10-11); otherwise the same elementwise update is applied. -/
def muUpdateSingle {b w : ℕ} (param : Matrix (Fin b) (Fin w) ℝ)
    (grad : Option (Matrix (Fin b) (Fin w) ℝ)) (pos : Matrix (Fin b) (Fin w) ℝ)
    (gamma l1 l2 : ℝ) : Matrix (Fin b) (Fin w) ℝ :=
  match grad with
  | none => param
  | some g => Matrix.of fun i j =>
      let num := relu (pos i j - g i j)
      let den := pos i j + (if 0 < l1 then l1 else 0) + (if 0 < l2 then l2 * param i j else 0)
      let r := num / den
      param i j * (if gamma ≠ 1 then r ^ gamma else r)

/-- The MU step exponent selected by `fit` (models.py lines 122-127). -/
def gammaOf (beta : ℝ) : ℝ :=
  if beta < 1 then 1 / (2 - beta)
  else if 2 < beta then 1 / (beta - 1)
  else 1

/-- Model of `NMF.get_W_positive` (models.py lines 183-194): for `beta = 1` the
denominator is the row-sum of `H` broadcast along the example axis, computed
only when the cache argument is `none` and returned as the new cache; otherwise
it is `WH^(beta-1) @ H.T`, the elementwise power being skipped when `beta = 2`,
and the cache argument is passed through unchanged. -/
def getWPositive {m k n : ℕ} (H : Matrix (Fin k) (Fin n) ℝ)
    (WH : Matrix (Fin m) (Fin n) ℝ) (beta : ℝ) (Hsum : Option (Fin k → ℝ)) :
    Matrix (Fin m) (Fin k) ℝ × Option (Fin k → ℝ) :=
  if beta = 1 then
    let s := Hsum.getD fun i => ∑ j, H i j
    (Matrix.of fun _ i => s i, some s)
  else
    let WH2 := if beta ≠ 2 then WH.map (fun x => x ^ (beta - 1)) else WH
    (WH2 * H.transpose, Hsum)

/-- Model of `NMF.get_H_positive` (models.py lines 196-207), symmetric to
`getWPositive`: column-sum of `W` broadcast along the feature axis for
`beta = 1`, otherwise `W.T @ WH^(beta-1)`. -/
def getHPositive {m k n : ℕ} (W : Matrix (Fin m) (Fin k) ℝ)
    (WH : Matrix (Fin m) (Fin n) ℝ) (beta : ℝ) (Wsum : Option (Fin k → ℝ)) :
    Matrix (Fin k) (Fin n) ℝ × Option (Fin k → ℝ) :=
  if beta = 1 then
    let s := Wsum.getD fun j => ∑ i, W i j
    (Matrix.of fun i _ => s i, some s)
  else
    let WH2 := if beta ≠ 2 then WH.map (fun x => x ^ (beta - 1)) else WH
    (W.transpose * WH2, Wsum)

/-- Mutable state of a plain matrix-product `NMF` model during `fit`:
the factor collections (`W_list` and `H_list`, concatenated into matrices, one
block per row) and the two denominator caches (`H_sum`, `W_sum`). -/
structure NMFState (m k n : ℕ) where
  W : Matrix (Fin m) (Fin k) ℝ
  H : Matrix (Fin k) (Fin n) ℝ
  Hsum : Option (Fin k → ℝ)
  Wsum : Option (Fin k → ℝ)

/-- For `beta = 1` the denominator passed to `_mu_update` is the view
`H_sum[None, :]` of the cache, so the in-place `pos.add_(l1_reg)` of
models.py line 17 writes through into the cached sum; this function models that
mutation.  (The in-place L2 add of line 26 aliases the cache only in the
degenerate single-block case, which no claim depends on.) -/
def regAdd (l1 : ℝ) (s : Fin k → ℝ) : Fin k → ℝ :=
  fun j => s j + if 0 < l1 then l1 else 0

/-- Whether an update side runs: `update_W and any(x.requires_grad for x in
self.W_list)` (models.py lines 133, 143). -/
def sideActive {b : ℕ} (upd : Bool) (rg : Fin b → Bool) : Bool :=
  upd && decide (∃ i, rg i = true)

/-- One outer iteration of `NMFBase.fit` (models.py lines 133-151) for the
plain matrix-product model: the W-step reconstructs `WH = W @ H`, obtains the
denominator from `get_W_positive`, runs `_mu_update` on the W collection and
clears the `W_sum` cache; then the H-step does the symmetric update on the
state left by the W-step and clears `H_sum`.  The autodiff gradients `gW`, `gH`
produced by the backward passes are parameters. -/
def fitStep {m k n : ℕ} (updW updH : Bool) (rgW : Fin m → Bool) (rgH : Fin k → Bool)
    (beta gamma l1 l2 : ℝ) (gW : Matrix (Fin m) (Fin k) ℝ)
    (gH : Matrix (Fin k) (Fin n) ℝ) (s : NMFState m k n) : NMFState m k n :=
  let s1 :=
    if sideActive updW rgW = true then
      let p := getWPositive s.H (s.W * s.H) beta s.Hsum
      { W := muUpdateList s.W rgW gW p.1 gamma l1 l2
        H := s.H
        Hsum := if beta = 1 then p.2.map (regAdd l1) else p.2
        Wsum := none }
    else s
  if sideActive updH rgH = true then
    let p := getHPositive s1.W (s1.W * s1.H) beta s1.Wsum
    { W := s1.W
      H := muUpdateList s1.H rgH gH p.1 gamma l1 l2
      Hsum := none
      Wsum := if beta = 1 then p.2.map (regAdd l1) else p.2 }
  else s1

/-- Iterate `fitStep` for the requested number of outer iterations, with an
arbitrary gradient pair per iteration. -/
def fitIterate {m k n : ℕ} (updW updH : Bool) (rgW : Fin m → Bool) (rgH : Fin k → Bool)
    (beta gamma l1 l2 : ℝ)
    (grads : ℕ → Matrix (Fin m) (Fin k) ℝ × Matrix (Fin k) (Fin n) ℝ) :
    ℕ → NMFState m k n → NMFState m k n
  | 0, s => s
  | t + 1, s =>
      fitStep updW updH rgW rgH beta gamma l1 l2 (grads t).1 (grads t).2
        (fitIterate updW updH rgW rgH beta gamma l1 l2 grads t s)

/-- Control skeleton of the `fit` loop after iteration 0 (models.py lines
132-162): `prev` is `previous_loss`, `i` is the next value of `n_iter`, `fuel`
is the number of loop indices still available.  Returns the pair
(value of `n_iter` at `return`, number of loop-body executions). -/
def fitLoopGo (losses : ℕ → ℝ) (tol lossInit : ℝ) : ℝ → ℕ → ℕ → ℕ × ℕ
  | _, i, 0 => (i - 1, i)
  | prev, i, fuel + 1 =>
      if (prev - losses i) / lossInit < tol then (i, i + 1)
      else fitLoopGo losses tol lossInit (losses i) (i + 1) fuel

/-- The `fit` loop for `max_iter = t + 1` iterations: iteration 0 records
`loss_init` and never breaks; from iteration 1 on, the loop breaks as soon as
`(previous_loss - loss) / loss_init < tol`.  Returns
(value of `n_iter` returned, number of iterations executed). -/
def fitLoopPos (losses : ℕ → ℝ) (tol : ℝ) (t : ℕ) : ℕ × ℕ :=
  fitLoopGo losses tol (losses 0) (losses 0) 1 t

/-- Model of `NMFBase.fit` (models.py lines 111-162) for the plain matrix-product model:
`gamma` is selected from `beta`, `l1_reg = alpha * rho` and
`l2_reg = alpha * (1 - rho)` where `rho` is the `l1_ratio` argument.  With
`max_iter = 0` the loop body never runs and the `return n_iter` of line 162
raises `UnboundLocalError`; when both update sides are skipped, `loss` is never
assigned and line 153 raises `UnboundLocalError` during iteration 0.
Otherwise the loop runs, the recorded normalized losses being abstracted as the
sequence `losses`, and the state is advanced once per executed iteration. -/
def nmfFit {m k n : ℕ} (updW updH : Bool) (rgW : Fin m → Bool) (rgH : Fin k → Bool)
    (beta tol alpha rho : ℝ) (maxIter : ℕ)
    (grads : ℕ → Matrix (Fin m) (Fin k) ℝ × Matrix (Fin k) (Fin n) ℝ)
    (losses : ℕ → ℝ) (s0 : NMFState m k n) : Except String (ℕ × NMFState m k n) :=
  match maxIter with
  | 0 => .error "UnboundLocalError: n_iter"
  | t + 1 =>
      if sideActive updW rgW = false ∧ sideActive updH rgH = false then
        .error "UnboundLocalError: loss"
      else
        let r := fitLoopPos losses tol t
        .ok (r.1, fitIterate updW updH rgW rgH beta (gammaOf beta) (alpha * rho)
              (alpha * (1 - rho)) grads r.2 s0)

/-- Model of `NMFBase.fit_transform` (models.py lines 164-166): run `fit` and return its
value together with the concatenation of the `W` blocks. -/
def fitTransform {m k n : ℕ} (updW updH : Bool) (rgW : Fin m → Bool) (rgH : Fin k → Bool)
    (beta tol alpha rho : ℝ) (maxIter : ℕ)
    (grads : ℕ → Matrix (Fin m) (Fin k) ℝ × Matrix (Fin k) (Fin n) ℝ)
    (losses : ℕ → ℝ) (s0 : NMFState m k n) :
    Except String (ℕ × Matrix (Fin m) (Fin k) ℝ) :=
  (nmfFit updW updH rgW rgH beta tol alpha rho maxIter grads losses s0).map
    fun p => (p.1, p.2.W)

/-- Shapes of the factor blocks created by `NMFBase.__init__`
(models.py lines 65-68): explicit initial values are wrapped in
`nn.Parameter` unchanged — their shapes are never compared with the declared
shape; without initial values, `shape[0]` random blocks of shape
`(1, *shape[1:])` are created. -/
def initBlockShapes (declaredShape : List ℕ) (initialVals : Option (List (List ℕ))) :
    List (List ℕ) :=
  match initialVals with
  | some ws => ws
  | none => List.replicate (declaredShape.headD 0) (1 :: declaredShape.drop 1)

/-- Block shapes consistent with a declared factor shape `(b, w, ...)`:
`b` blocks, each of shape `(1, w, ...)`, so that concatenation along dimension
0 reproduces the declared shape. -/
def consistentInit (declared : List ℕ) (blocks : List (List ℕ)) : Prop :=
  blocks.length = declared.headD 0 ∧ ∀ s ∈ blocks, s = 1 :: declared.drop 1

instance (declared : List ℕ) (blocks : List (List ℕ)) :
    Decidable (consistentInit declared blocks) := by
  unfold consistentInit; infer_instance

/-- A cache option whose cached vector, if present, is entrywise nonnegative. -/
def OptNonneg {k : ℕ} (o : Option (Fin k → ℝ)) : Prop :=
  ∀ v, o = some v → ∀ j, 0 ≤ v j

/-- All numeric content of a fit state is entrywise nonnegative. -/
def StateNonneg {m k n : ℕ} (s : NMFState m k n) : Prop :=
  (∀ i j, 0 ≤ s.W i j) ∧ (∀ i j, 0 ≤ s.H i j) ∧ OptNonneg s.Hsum ∧ OptNonneg s.Wsum

lemma ite_reg_nonneg (l1 : ℝ) : (0 : ℝ) ≤ if 0 < l1 then l1 else 0 := by
  by_cases h : 0 < l1
  · simpa [h] using le_of_lt h
  · simp [h]

lemma ite_reg_mul_nonneg (l2 x : ℝ) (hx : 0 ≤ x) :
    (0 : ℝ) ≤ if 0 < l2 then l2 * x else 0 := by
  by_cases h : 0 < l2
  · simpa [h] using mul_nonneg (le_of_lt h) hx
  · simp [h]

/-- The multiplicative update never produces a negative entry: the numerator is
a relu and the denominator is the nonnegative `pos` plus nonnegative
regularization terms. -/
lemma muUpdateList_nonneg {b w : ℕ} (param : Matrix (Fin b) (Fin w) ℝ)
    (rg : Fin b → Bool) (grad pos : Matrix (Fin b) (Fin w) ℝ) (gamma l1 l2 : ℝ)
    (hp : ∀ i j, 0 ≤ param i j) (hpos : ∀ i j, 0 ≤ pos i j) :
    ∀ i j, 0 ≤ muUpdateList param rg grad pos gamma l1 l2 i j := by
  intro i j
  simp only [muUpdateList, Matrix.of_apply]
  have hden : 0 ≤ pos i j + (if 0 < l1 then l1 else 0)
      + (if 0 < l2 then l2 * param i j else 0) :=
    add_nonneg (add_nonneg (hpos i j) (ite_reg_nonneg l1)) (ite_reg_mul_nonneg l2 _ (hp i j))
  have hr : 0 ≤ relu (pos i j - if rg i = true then grad i j else 0)
      / (pos i j + (if 0 < l1 then l1 else 0) + (if 0 < l2 then l2 * param i j else 0)) :=
    div_nonneg (le_max_right _ _) hden
  split
  · exact mul_nonneg (hp i j) (Real.rpow_nonneg hr _)
  · exact mul_nonneg (hp i j) hr

lemma matMul_nonneg {a b c : ℕ} (A : Matrix (Fin a) (Fin b) ℝ)
    (B : Matrix (Fin b) (Fin c) ℝ) (hA : ∀ i j, 0 ≤ A i j) (hB : ∀ i j, 0 ≤ B i j) :
    ∀ i j, 0 ≤ (A * B) i j := by
  intro i j
  rw [Matrix.mul_apply]
  exact Finset.sum_nonneg fun t _ => mul_nonneg (hA i t) (hB t j)

lemma getWPositive_nonneg {m k n : ℕ} (H : Matrix (Fin k) (Fin n) ℝ)
    (WH : Matrix (Fin m) (Fin n) ℝ) (beta : ℝ) (Hsum : Option (Fin k → ℝ))
    (hH : ∀ i j, 0 ≤ H i j) (hWH : ∀ i j, 0 ≤ WH i j) (hc : OptNonneg Hsum) :
    (∀ i j, 0 ≤ (getWPositive H WH beta Hsum).1 i j)
    ∧ OptNonneg (getWPositive H WH beta Hsum).2 := by
  by_cases hb : beta = 1
  · have hs : ∀ i, 0 ≤ (Hsum.getD fun i => ∑ j, H i j) i := by
      cases Hsum with
      | none => exact fun i => Finset.sum_nonneg fun j _ => hH i j
      | some v => exact hc v rfl
    simp only [getWPositive, if_pos hb]
    exact ⟨fun i j => hs j, fun v hv j => by
      simp only [Option.some.injEq] at hv; exact hv ▸ hs j⟩
  · simp only [getWPositive, if_neg hb]
    refine ⟨fun i j => ?_, hc⟩
    refine matMul_nonneg _ _ (fun i t => ?_) (fun t j => hH j t) i j
    split
    · exact Real.rpow_nonneg (hWH i t) _
    · exact hWH i t

lemma getHPositive_nonneg {m k n : ℕ} (W : Matrix (Fin m) (Fin k) ℝ)
    (WH : Matrix (Fin m) (Fin n) ℝ) (beta : ℝ) (Wsum : Option (Fin k → ℝ))
    (hW : ∀ i j, 0 ≤ W i j) (hWH : ∀ i j, 0 ≤ WH i j) (hc : OptNonneg Wsum) :
    (∀ i j, 0 ≤ (getHPositive W WH beta Wsum).1 i j)
    ∧ OptNonneg (getHPositive W WH beta Wsum).2 := by
  by_cases hb : beta = 1
  · have hs : ∀ i, 0 ≤ (Wsum.getD fun j => ∑ i, W i j) i := by
      cases Wsum with
      | none => exact fun j => Finset.sum_nonneg fun i _ => hW i j
      | some v => exact hc v rfl
    simp only [getHPositive, if_pos hb]
    exact ⟨fun i j => hs i, fun v hv j => by
      simp only [Option.some.injEq] at hv; exact hv ▸ hs j⟩
  · simp only [getHPositive, if_neg hb]
    refine ⟨fun i j => ?_, hc⟩
    refine matMul_nonneg _ _ (fun i t => hW t i) (fun t j => ?_) i j
    split
    · exact Real.rpow_nonneg (hWH t j) _
    · exact hWH t j

lemma optNonneg_map_regAdd {k : ℕ} (l1 : ℝ) (o : Option (Fin k → ℝ))
    (h : OptNonneg o) : OptNonneg (o.map (regAdd l1)) := by
  intro v hv j
  cases o with
  | none => exact Option.noConfusion hv
  | some s =>
      simp only [Option.map_some', Option.some.injEq] at hv
      subst hv
      exact add_nonneg (h s rfl j) (ite_reg_nonneg l1)

/-- One outer fit iteration preserves entrywise nonnegativity of the factors
and of the caches, for every gradient, beta, gamma and regularization. -/
lemma fitStep_nonneg {m k n : ℕ} (updW updH : Bool) (rgW : Fin m → Bool)
    (rgH : Fin k → Bool) (beta gamma l1 l2 : ℝ) (gW : Matrix (Fin m) (Fin k) ℝ)
    (gH : Matrix (Fin k) (Fin n) ℝ) (s : NMFState m k n) (h : StateNonneg s) :
    StateNonneg (fitStep updW updH rgW rgH beta gamma l1 l2 gW gH s) := by
  obtain ⟨hW, hH, hHs, hWs⟩ := h
  unfold fitStep
  have hWH : ∀ i j, 0 ≤ (s.W * s.H) i j := matMul_nonneg _ _ hW hH
  have step1 : StateNonneg (if sideActive updW rgW = true then
      { W := muUpdateList s.W rgW gW (getWPositive s.H (s.W * s.H) beta s.Hsum).1 gamma l1 l2
        H := s.H
        Hsum := if beta = 1 then (getWPositive s.H (s.W * s.H) beta s.Hsum).2.map (regAdd l1)
                else (getWPositive s.H (s.W * s.H) beta s.Hsum).2
        Wsum := none } else s) := by
    split
    · obtain ⟨hpos, hcache⟩ := getWPositive_nonneg s.H (s.W * s.H) beta s.Hsum hH hWH hHs
      refine ⟨muUpdateList_nonneg _ _ _ _ _ _ _ hW hpos, hH, ?_, fun v hv => Option.noConfusion hv⟩
      split
      · exact optNonneg_map_regAdd l1 _ hcache
      · exact hcache
    · exact ⟨hW, hH, hHs, hWs⟩
  set s1 := (if sideActive updW rgW = true then _ else s) with hs1
  obtain ⟨h1W, h1H, h1Hs, h1Ws⟩ := step1
  have h1WH : ∀ i j, 0 ≤ (s1.W * s1.H) i j := matMul_nonneg _ _ h1W h1H
  split
  · obtain ⟨hpos, hcache⟩ := getHPositive_nonneg s1.W (s1.W * s1.H) beta s1.Wsum h1W h1WH h1Ws
    refine ⟨h1W, muUpdateList_nonneg _ _ _ _ _ _ _ h1H hpos, fun v hv => Option.noConfusion hv, ?_⟩
    split
    · exact optNonneg_map_regAdd l1 _ hcache
    · exact hcache
  · exact ⟨h1W, h1H, h1Hs, h1Ws⟩

lemma fitIterate_nonneg {m k n : ℕ} (updW updH : Bool) (rgW : Fin m → Bool)
    (rgH : Fin k → Bool) (beta gamma l1 l2 : ℝ)
    (grads : ℕ → Matrix (Fin m) (Fin k) ℝ × Matrix (Fin k) (Fin n) ℝ)
    (s0 : NMFState m k n) (h : StateNonneg s0) :
    ∀ N, StateNonneg (fitIterate updW updH rgW rgH beta gamma l1 l2 grads N s0) := by
  intro N
  induction N with
  | zero => exact h
  | succ t ih => exact fitStep_nonneg _ _ _ _ _ _ _ _ _ _ _ ih

/-- C1: if every factor entry (and every cached sum) is nonnegative at entry to
`fit` — as the random initialization of the constructor guarantees — then after
any number of outer iterations, with `gamma` selected from `beta` and
`l1_reg = alpha * rho`, `l2_reg = alpha * (1 - rho)` exactly as `fit` computes
them, every entry of `W` and of `H` is still nonnegative, for every beta, every
alpha and l1_ratio, and every gradient the backward passes may produce. -/
theorem fit_nonneg {m k n : ℕ} (updW updH : Bool) (rgW : Fin m → Bool)
    (rgH : Fin k → Bool) (beta alpha rho : ℝ)
    (grads : ℕ → Matrix (Fin m) (Fin k) ℝ × Matrix (Fin k) (Fin n) ℝ)
    (s0 : NMFState m k n) (hW : ∀ i j, 0 ≤ s0.W i j) (hH : ∀ i j, 0 ≤ s0.H i j)
    (hHs : OptNonneg s0.Hsum) (hWs : OptNonneg s0.Wsum) :
    ∀ N, (∀ i j, 0 ≤ (fitIterate updW updH rgW rgH beta (gammaOf beta)
            (alpha * rho) (alpha * (1 - rho)) grads N s0).W i j)
        ∧ (∀ i j, 0 ≤ (fitIterate updW updH rgW rgH beta (gammaOf beta)
            (alpha * rho) (alpha * (1 - rho)) grads N s0).H i j) := by
  intro N
  obtain ⟨h1, h2, _, _⟩ := fitIterate_nonneg updW updH rgW rgH beta (gammaOf beta)
    (alpha * rho) (alpha * (1 - rho)) grads s0 ⟨hW, hH, hHs, hWs⟩ N
  exact ⟨h1, h2⟩

/-- Concrete all-ones initial state on 1x1 factors, used by witnesses. -/
def onesState : NMFState 1 1 1 :=
  ⟨Matrix.of fun _ _ => 1, Matrix.of fun _ _ => 1, none, none⟩

theorem fit_nonneg_witness :
    (∀ i j, 0 ≤ onesState.W i j) ∧ (∀ i j, 0 ≤ onesState.H i j)
    ∧ OptNonneg onesState.Hsum ∧ OptNonneg onesState.Wsum
    ∧ ∀ N, (∀ i j, 0 ≤ (fitIterate true true (fun _ => true) (fun _ => true)
          2 (gammaOf 2) ((1 : ℝ) * 1) ((1 : ℝ) * (1 - 1)) (fun _ => (0, 0)) N onesState).W i j)
        ∧ (∀ i j, 0 ≤ (fitIterate true true (fun _ => true) (fun _ => true)
          2 (gammaOf 2) ((1 : ℝ) * 1) ((1 : ℝ) * (1 - 1)) (fun _ => (0, 0)) N onesState).H i j) :=
  ⟨fun _ _ => zero_le_one, fun _ _ => zero_le_one,
   fun _v hv => Option.noConfusion hv, fun _v hv => Option.noConfusion hv,
   fit_nonneg true true (fun _ => true) (fun _ => true) 2 1 1 (fun _ => (0, 0)) onesState
     (fun _ _ => zero_le_one) (fun _ _ => zero_le_one)
     (fun _v hv => Option.noConfusion hv) (fun _v hv => Option.noConfusion hv)⟩

/-- Concrete two-block W factor state (2x1 W, 1x1 H), all entries 1. -/
def twoBlockState : NMFState 2 1 1 :=
  ⟨Matrix.of fun _ _ => 1, Matrix.of fun _ _ => 1, none, none⟩

/-- requires_grad flags with block 0 fixed and block 1 trainable. -/
def rgFixedFirst : Fin 2 → Bool := fun i => decide (i.val = 1)

/-- C2 counterexample: with W block 0 fixed (requires_grad False), W block 1
trainable, `beta = 2`, `alpha = 1`, `l1_ratio = 1` (so `l1_reg = 1`), a single
fit iteration from the all-ones state multiplies the fixed block by
`relu(pos - 0)/(pos + l1_reg) = 1/2`: its value is not preserved. -/
theorem fixed_block_changed :
    rgFixedFirst 0 = false
    ∧ (fitIterate true true rgFixedFirst (fun _ => true) 2 (gammaOf 2) ((1 : ℝ) * 1)
        ((1 : ℝ) * (1 - 1)) (fun _ => (0, 0)) 1 twoBlockState).W 0 0 ≠ twoBlockState.W 0 0 := by
  have hW : sideActive true rgFixedFirst = true := by decide
  have hH : sideActive true (fun _ : Fin 1 => true) = true := by decide
  have hg : gammaOf 2 = 1 := by norm_num [gammaOf]
  refine ⟨rfl, ?_⟩
  simp only [fitIterate, fitStep, hW, hH, hg, if_true, twoBlockState, rgFixedFirst]
  norm_num [getWPositive, getHPositive, muUpdateList, relu, sideActive, regAdd,
    Matrix.mul_apply, Matrix.of_apply, Matrix.transpose_apply, Fin.sum_univ_one, max_def]

lemma mu_entry_eq (p g q gamma l1 l2 : ℝ) (hl1 : 0 ≤ l1) (hl2 : 0 ≤ l2) :
    p * (if gamma ≠ 1 then
          (relu (q - g) / (q + (if 0 < l1 then l1 else 0)
            + (if 0 < l2 then l2 * p else 0))) ^ gamma
         else relu (q - g) / (q + (if 0 < l1 then l1 else 0)
            + (if 0 < l2 then l2 * p else 0)))
    = p * (relu (q - g) / (q + l1 + l2 * p)) ^ gamma := by
  have e1 : (if 0 < l1 then l1 else 0) = l1 := by
    rcases hl1.lt_or_eq with h | h
    · rw [if_pos h]
    · rw [if_neg (by rw [← h]; exact lt_irrefl 0), ← h]
  have e2 : (if 0 < l2 then l2 * p else 0) = l2 * p := by
    rcases hl2.lt_or_eq with h | h
    · rw [if_pos h]
    · rw [if_neg (by rw [← h]; exact lt_irrefl 0), ← h, zero_mul]
  rw [e1, e2]
  by_cases hgam : gamma = 1
  · rw [if_neg (by simp [hgam]), hgam, Real.rpow_one]
  · rw [if_pos hgam]

/-- C2 amended: a fixed single tensor (gradient `None`) is returned untouched
by `_mu_update`, but a fixed block inside a collection is still multiplied by
`(relu(pos - 0)/(pos + regs))^gamma`; that multiplier equals 1 — so the block
is unchanged — when both regularization coefficients are ≤ 0 (as with
`alpha = 0`) and the block's denominator entries are strictly positive. -/
theorem fixed_block_amended {b w : ℕ} (param : Matrix (Fin b) (Fin w) ℝ)
    (rg : Fin b → Bool) (grad pos : Matrix (Fin b) (Fin w) ℝ) (gamma l1 l2 : ℝ)
    (i : Fin b) (j : Fin w) (hfix : rg i = false) (hl1 : l1 ≤ 0) (hl2 : l2 ≤ 0)
    (hpos : 0 < pos i j) :
    muUpdateList param rg grad pos gamma l1 l2 i j = param i j
    ∧ muUpdateSingle param none pos gamma l1 l2 = param := by
  refine ⟨?_, rfl⟩
  simp only [muUpdateList, Matrix.of_apply, hfix, Bool.false_eq_true, if_false]
  rw [if_neg (not_lt.mpr hl1), if_neg (not_lt.mpr hl2)]
  have hr : relu (pos i j - 0) / (pos i j + 0 + 0) = 1 := by
    rw [sub_zero, add_zero, add_zero, relu, max_eq_left hpos.le]
    exact div_self (ne_of_gt hpos)
  rw [hr]
  by_cases hgam : gamma = 1
  · rw [if_neg (by simp [hgam]), mul_one]
  · rw [if_pos hgam, Real.one_rpow, mul_one]

theorem fixed_block_amended_witness :
    rgFixedFirst 0 = false ∧ (0 : ℝ) ≤ 0 ∧ (0 : ℝ) ≤ 0
    ∧ (0 : ℝ) < (Matrix.of (fun _ _ => 1) : Matrix (Fin 2) (Fin 1) ℝ) 0 0
    ∧ (muUpdateList (Matrix.of (fun _ _ => 2) : Matrix (Fin 2) (Fin 1) ℝ) rgFixedFirst
        (Matrix.of fun _ _ => 3) (Matrix.of fun _ _ => 1) 5 0 0 0 0
        = (Matrix.of (fun _ _ => 2) : Matrix (Fin 2) (Fin 1) ℝ) 0 0
      ∧ muUpdateSingle (Matrix.of (fun _ _ => 2) : Matrix (Fin 2) (Fin 1) ℝ) none
          (Matrix.of fun _ _ => 1) 5 0 0
        = (Matrix.of (fun _ _ => 2) : Matrix (Fin 2) (Fin 1) ℝ)) :=
  ⟨rfl, le_refl 0, le_refl 0, zero_lt_one,
   fixed_block_amended (Matrix.of (fun _ _ => 2) : Matrix (Fin 2) (Fin 1) ℝ) rgFixedFirst
     (Matrix.of fun _ _ => 3) (Matrix.of fun _ _ => 1) 5 0 0 0 0 rfl
     (le_refl 0) (le_refl 0) zero_lt_one⟩

/-- C4 counterexample: with `alpha = -1`, `l1_ratio = 1` (so
`l1_reg = -1 < 0`), the code skips the `pos.add_(l1_reg)` step and divides by
`pos`, while the claimed formula divides by `pos + l1_reg + l2_reg * old`: at
`old = 1`, `pos = 2`, `grad = 0`, `gamma = 1` the code produces 1 but the
claimed formula produces 2. -/
theorem mu_update_formula_cex :
    muUpdateList (Matrix.of fun _ _ => 1) (fun _ => true) (Matrix.of fun _ _ => 0)
        (Matrix.of (fun _ _ => 2) : Matrix (Fin 1) (Fin 1) ℝ) 1 ((-1) * 1) ((-1) * (1 - 1)) 0 0
      ≠ (1 : ℝ) * (relu (2 - 0) / (2 + (-1) * 1 + (-1) * (1 - 1) * 1)) ^ (1 : ℝ) := by
  norm_num [muUpdateList, relu, Matrix.of_apply, max_def, Real.rpow_one]

/-- C4 amended: for a trainable entry of a factor collection — and likewise for
a single tensor with a gradient — when the regularization coefficients
`l1_reg = alpha * l1_ratio` and `l2_reg = alpha * (1 - l1_ratio)` are
nonnegative, the updated entry equals
`old * (relu(pos - grad) / (pos + l1_reg + l2_reg * old)) ^ gamma`, the
power being computed as the identity when `gamma = 1`. -/
theorem mu_update_formula {b w : ℕ} (param : Matrix (Fin b) (Fin w) ℝ)
    (rg : Fin b → Bool) (grad pos : Matrix (Fin b) (Fin w) ℝ) (gamma alpha rho : ℝ)
    (i : Fin b) (j : Fin w) (htr : rg i = true)
    (hl1 : 0 ≤ alpha * rho) (hl2 : 0 ≤ alpha * (1 - rho)) :
    muUpdateList param rg grad pos gamma (alpha * rho) (alpha * (1 - rho)) i j
      = param i j * (relu (pos i j - grad i j)
          / (pos i j + alpha * rho + alpha * (1 - rho) * param i j)) ^ gamma
    ∧ muUpdateSingle param (some grad) pos gamma (alpha * rho) (alpha * (1 - rho)) i j
      = param i j * (relu (pos i j - grad i j)
          / (pos i j + alpha * rho + alpha * (1 - rho) * param i j)) ^ gamma := by
  constructor
  · simp only [muUpdateList, Matrix.of_apply, htr, if_true]
    exact mu_entry_eq _ _ _ gamma _ _ hl1 hl2
  · simp only [muUpdateSingle, Matrix.of_apply]
    exact mu_entry_eq _ _ _ gamma _ _ hl1 hl2

theorem mu_update_formula_witness :
    (fun _ : Fin 1 => true) 0 = true ∧ (0 : ℝ) ≤ 2 * (1 / 2) ∧ (0 : ℝ) ≤ 2 * (1 - 1 / 2)
    ∧ (muUpdateList (Matrix.of (fun _ _ => 1) : Matrix (Fin 1) (Fin 1) ℝ) (fun _ => true)
          (Matrix.of fun _ _ => 0)
          (Matrix.of fun _ _ => 3) 7 (2 * (1 / 2)) (2 * (1 - 1 / 2)) 0 0
        = (Matrix.of (fun _ _ => 1) : Matrix (Fin 1) (Fin 1) ℝ) 0 0
          * (relu ((Matrix.of (fun _ _ => 3) : Matrix (Fin 1) (Fin 1) ℝ) 0 0
              - (Matrix.of (fun _ _ => 0) : Matrix (Fin 1) (Fin 1) ℝ) 0 0)
            / ((Matrix.of (fun _ _ => 3) : Matrix (Fin 1) (Fin 1) ℝ) 0 0 + 2 * (1 / 2)
              + 2 * (1 - 1 / 2) * (Matrix.of (fun _ _ => 1) : Matrix (Fin 1) (Fin 1) ℝ) 0 0)) ^ (7 : ℝ)
      ∧ muUpdateSingle (Matrix.of (fun _ _ => 1) : Matrix (Fin 1) (Fin 1) ℝ)
          (some (Matrix.of fun _ _ => 0)) (Matrix.of fun _ _ => 3) 7 (2 * (1 / 2)) (2 * (1 - 1 / 2)) 0 0
        = (Matrix.of (fun _ _ => 1) : Matrix (Fin 1) (Fin 1) ℝ) 0 0
          * (relu ((Matrix.of (fun _ _ => 3) : Matrix (Fin 1) (Fin 1) ℝ) 0 0
              - (Matrix.of (fun _ _ => 0) : Matrix (Fin 1) (Fin 1) ℝ) 0 0)
            / ((Matrix.of (fun _ _ => 3) : Matrix (Fin 1) (Fin 1) ℝ) 0 0 + 2 * (1 / 2)
              + 2 * (1 - 1 / 2) * (Matrix.of (fun _ _ => 1) : Matrix (Fin 1) (Fin 1) ℝ) 0 0)) ^ (7 : ℝ)) :=
  ⟨rfl, by norm_num, by norm_num,
   mu_update_formula (Matrix.of (fun _ _ => 1) : Matrix (Fin 1) (Fin 1) ℝ) (fun _ => true)
     (Matrix.of fun _ _ => 0) (Matrix.of fun _ _ => 3) 7 2 (1 / 2) 0 0 rfl
     (by norm_num) (by norm_num)⟩

/-- C5: `fit` selects the MU step exponent gamma as `1/(2 - beta)` when
`beta < 1`, as `1/(beta - 1)` when `beta > 2`, and as exactly `1` when
`1 ≤ beta ≤ 2`. -/
theorem gamma_selection (beta : ℝ) :
    (beta < 1 → gammaOf beta = 1 / (2 - beta))
    ∧ (2 < beta → gammaOf beta = 1 / (beta - 1))
    ∧ (1 ≤ beta → beta ≤ 2 → gammaOf beta = 1) := by
  refine ⟨fun h => ?_, fun h => ?_, fun h1 h2 => ?_⟩ <;> unfold gammaOf
  · rw [if_pos h]
  · rw [if_neg (by linarith), if_pos h]
  · rw [if_neg (by linarith), if_neg (by linarith)]

theorem gamma_selection_witness :
    ((1 : ℝ) / 2 < 1 ∧ gammaOf (1 / 2) = 1 / (2 - 1 / 2))
    ∧ ((2 : ℝ) < 3 ∧ gammaOf 3 = 1 / (3 - 1))
    ∧ ((1 : ℝ) ≤ 3 / 2 ∧ (3 : ℝ) / 2 ≤ 2 ∧ gammaOf (3 / 2) = 1) :=
  ⟨⟨by norm_num, (gamma_selection (1 / 2)).1 (by norm_num)⟩,
   ⟨by norm_num, (gamma_selection 3).2.1 (by norm_num)⟩,
   ⟨by norm_num, by norm_num, (gamma_selection (3 / 2)).2.2 (by norm_num) (by norm_num)⟩⟩

/-- C6: for the plain matrix-product model, `get_W_positive` returns at
`beta = 1` the row-sum of `H` broadcast along the example axis — computed
exactly when the cache argument is `None`, and returned as the new cache so it
is not recomputed on later calls — and otherwise returns
`WH^(beta-1) @ H.T` with the elementwise power that is the identity at
`beta = 2`; `get_H_positive` symmetrically returns the broadcast column-sum of
`W`, or `W.T @ WH^(beta-1)`. -/
theorem get_positive_spec {m k n : ℕ} (W : Matrix (Fin m) (Fin k) ℝ)
    (H : Matrix (Fin k) (Fin n) ℝ) (WH : Matrix (Fin m) (Fin n) ℝ) (beta : ℝ)
    (s : Fin k → ℝ) (c : Option (Fin k → ℝ)) :
    (getWPositive H WH 1 none
        = (Matrix.of fun _ i => ∑ j, H i j, some fun i => ∑ j, H i j))
    ∧ (getWPositive H WH 1 (some s) = (Matrix.of fun _ i => s i, some s))
    ∧ (beta ≠ 1 → getWPositive H WH beta c
        = ((WH.map fun x => x ^ (beta - 1)) * H.transpose, c))
    ∧ (getHPositive W WH 1 none
        = (Matrix.of fun i _ => ∑ i2, W i2 i, some fun j => ∑ i, W i j))
    ∧ (getHPositive W WH 1 (some s) = (Matrix.of fun i _ => s i, some s))
    ∧ (beta ≠ 1 → getHPositive W WH beta c
        = (W.transpose * (WH.map fun x => x ^ (beta - 1)), c)) := by
  have hpow : ∀ (a b2 : ℕ) (M : Matrix (Fin a) (Fin b2) ℝ),
      M.map (fun x => x ^ ((2 : ℝ) - 1)) = M := by
    intro a b2 M
    ext i j
    rw [Matrix.map_apply, show (2 : ℝ) - 1 = 1 by norm_num, Real.rpow_one]
  refine ⟨?_, ?_, fun hb => ?_, ?_, ?_, fun hb => ?_⟩
  · simp [getWPositive]
  · simp [getWPositive]
  · simp only [getWPositive, if_neg hb]
    by_cases hb2 : beta = 2
    · subst hb2
      rw [if_neg (by simp), hpow]
    · rw [if_pos hb2]
  · simp [getHPositive]
  · simp [getHPositive]
  · simp only [getHPositive, if_neg hb]
    by_cases hb2 : beta = 2
    · subst hb2
      rw [if_neg (by simp), hpow]
    · rw [if_pos hb2]

theorem get_positive_spec_witness :
    ((2 : ℝ) ≠ 1)
    ∧ getWPositive (Matrix.of (fun _ _ => 1) : Matrix (Fin 1) (Fin 1) ℝ)
        (Matrix.of (fun _ _ => 1) : Matrix (Fin 1) (Fin 1) ℝ) 2 none
      = (((Matrix.of (fun _ _ => 1) : Matrix (Fin 1) (Fin 1) ℝ).map fun x => x ^ ((2 : ℝ) - 1))
          * (Matrix.of (fun _ _ => 1) : Matrix (Fin 1) (Fin 1) ℝ).transpose, none)
    ∧ getHPositive (Matrix.of (fun _ _ => 1) : Matrix (Fin 1) (Fin 1) ℝ)
        (Matrix.of (fun _ _ => 1) : Matrix (Fin 1) (Fin 1) ℝ) 2 none
      = ((Matrix.of (fun _ _ => 1) : Matrix (Fin 1) (Fin 1) ℝ).transpose
          * ((Matrix.of (fun _ _ => 1) : Matrix (Fin 1) (Fin 1) ℝ).map fun x => x ^ ((2 : ℝ) - 1)), none) :=
  ⟨by norm_num,
   (get_positive_spec (Matrix.of fun _ _ => 1) (Matrix.of fun _ _ => 1)
     (Matrix.of fun _ _ => 1) 2 (fun _ => 5) none).2.2.1 (by norm_num),
   (get_positive_spec (Matrix.of fun _ _ => 1) (Matrix.of fun _ _ => 1)
     (Matrix.of fun _ _ => 1) 2 (fun _ => 5) none).2.2.2.2.2 (by norm_num)⟩

lemma fitLoopGo_count (losses : ℕ → ℝ) (tol lossInit : ℝ) :
    ∀ fuel prev i, 1 ≤ i →
      (fitLoopGo losses tol lossInit prev i fuel).2 ≤ i + fuel
      ∧ (fitLoopGo losses tol lossInit prev i fuel).1 + 1
          = (fitLoopGo losses tol lossInit prev i fuel).2 := by
  intro fuel
  induction fuel with
  | zero =>
      intro prev i hi
      simp only [fitLoopGo]
      omega
  | succ f ih =>
      intro prev i hi
      simp only [fitLoopGo]
      split
      · exact ⟨by show i + 1 ≤ i + (f + 1); omega, rfl⟩
      · have h2 := ih (losses i) (i + 1) (by omega)
        exact ⟨h2.1.trans (by omega), h2.2⟩

lemma fitLoopGo_noBreak (losses : ℕ → ℝ) (lossInit : ℝ)
    (hmono : ∀ u, losses (u + 1) ≤ losses u) (hinit : 0 ≤ lossInit) :
    ∀ fuel i, 1 ≤ i →
      fitLoopGo losses 0 lossInit (losses (i - 1)) i fuel = (i + fuel - 1, i + fuel) := by
  intro fuel
  induction fuel with
  | zero =>
      intro i hi
      simp [fitLoopGo]
  | succ f ih =>
      intro i hi
      simp only [fitLoopGo]
      rw [if_neg]
      · have h2 := ih (i + 1) (by omega)
        rw [show i + 1 - 1 = i from by omega] at h2
        rw [h2]
        simp only [Prod.mk.injEq]
        omega
      · have hle : losses i ≤ losses (i - 1) := by
          have h := hmono (i - 1)
          rwa [Nat.sub_add_cancel hi] at h
        exact not_lt.mpr (div_nonneg (by linarith) hinit)

/-- C7 amended: the loop of `fit` executes its body at most `max_iter` times
and the value returned is one less than the number of iterations executed (the
zero-based index of the last iteration); with `tol = 0` and a nonincreasing,
initially nonnegative recorded-loss sequence, exactly `max_iter` iterations run
and `max_iter - 1` is returned; `fit_transform` returns `fit`'s value paired
with the concatenated `W`. -/
theorem fit_iter_count :
    (∀ (losses : ℕ → ℝ) (tol : ℝ) (t : ℕ),
        (fitLoopPos losses tol t).2 ≤ t + 1
        ∧ (fitLoopPos losses tol t).1 + 1 = (fitLoopPos losses tol t).2)
    ∧ (∀ (losses : ℕ → ℝ) (t : ℕ), (∀ u, losses (u + 1) ≤ losses u) → 0 ≤ losses 0 →
        fitLoopPos losses 0 t = (t, t + 1))
    ∧ (∀ (m k n : ℕ) (updW updH : Bool) (rgW : Fin m → Bool) (rgH : Fin k → Bool)
        (beta tol alpha rho : ℝ) (maxIter : ℕ)
        (grads : ℕ → Matrix (Fin m) (Fin k) ℝ × Matrix (Fin k) (Fin n) ℝ)
        (losses : ℕ → ℝ) (s0 : NMFState m k n),
        fitTransform updW updH rgW rgH beta tol alpha rho maxIter grads losses s0
          = (nmfFit updW updH rgW rgH beta tol alpha rho maxIter grads losses s0).map
              fun p => (p.1, p.2.W)) := by
  refine ⟨fun losses tol t => ?_, fun losses t hmono hinit => ?_, fun _ _ _ _ _ _ _ _ _ _ _ _ _ _ _ => rfl⟩
  · have h1 := (fitLoopGo_count losses tol (losses 0) t (losses 0) 1 (le_refl 1)).1
    have h2 := (fitLoopGo_count losses tol (losses 0) t (losses 0) 1 (le_refl 1)).2
    simp only [fitLoopPos]
    exact ⟨by omega, h2⟩
  · have h := fitLoopGo_noBreak losses (losses 0) hmono hinit t 1 (le_refl 1)
    simp only [show (1 : ℕ) - 1 = 0 from rfl] at h
    simp only [fitLoopPos]
    rw [h]
    simp only [Prod.mk.injEq]
    omega

/-- C7 counterexample: with `tol = 0`, `max_iter = 2` and a constant recorded
loss, the loop body executes 2 times (the second component of `fitLoopPos`) but
the `return n_iter` of `fit` yields 1, not the number of iterations actually
performed. -/
theorem fit_iter_count_cex :
    (nmfFit true true (fun _ : Fin 1 => true) (fun _ : Fin 1 => true) 2 0 0 0 2
        (fun _ => (0, 0)) (fun _ => 1) onesState).map Prod.fst = Except.ok 1
    ∧ fitLoopPos (fun _ => (1 : ℝ)) 0 1 = (1, 2) ∧ (1 : ℕ) ≠ 2 := by
  have hloop : fitLoopPos (fun _ => (1 : ℝ)) 0 1 = (1, 2) := by
    simp only [fitLoopPos, fitLoopGo]
    norm_num
  refine ⟨?_, hloop, by omega⟩
  simp only [nmfFit]
  rw [if_neg (by decide)]
  simp [hloop, Except.map]

theorem fit_iter_count_witness :
    (∀ _u : ℕ, (1 : ℝ) ≤ 1) ∧ (0 : ℝ) ≤ 1
    ∧ fitLoopPos (fun _ => (1 : ℝ)) 0 2 = (2, 3) :=
  ⟨fun _ => le_refl 1, zero_le_one,
   fit_iter_count.2.1 (fun _ => (1 : ℝ)) 2 (fun _ => le_refl 1) zero_le_one⟩

/-- C9 counterexample: when every block of both factors is fixed, neither
update side runs, the local `loss` of `fit` is never assigned, and iteration 0
dies with an UnboundLocalError instead of `fit` completing and returning. -/
theorem skip_sides_cex :
    nmfFit true true (fun _ : Fin 1 => false) (fun _ : Fin 1 => false) 2 0 0 0 1
        (fun _ => (0, 0)) (fun _ => 1) onesState
      = Except.error "UnboundLocalError: loss" := by
  have h : sideActive true (fun _ : Fin 1 => false) = false := by decide
  simp [nmfFit, h]

/-- C9 amended: an update side with no trainable blocks is skipped silently —
it leaves its factor unchanged — and `fit` completes and returns normally
whenever `max_iter ≥ 1` and the other side is active; but if both sides are
skipped, `fit` raises an UnboundLocalError on its `loss` variable instead of
returning. -/
theorem skip_sides_amended {m k n : ℕ} (updW updH : Bool) (rgW : Fin m → Bool)
    (rgH : Fin k → Bool) (beta gamma l1 l2 tol alpha rho : ℝ)
    (gW : Matrix (Fin m) (Fin k) ℝ) (gH : Matrix (Fin k) (Fin n) ℝ) (t : ℕ)
    (grads : ℕ → Matrix (Fin m) (Fin k) ℝ × Matrix (Fin k) (Fin n) ℝ)
    (losses : ℕ → ℝ) (s : NMFState m k n) :
    (sideActive updW rgW = false →
        (fitStep updW updH rgW rgH beta gamma l1 l2 gW gH s).W = s.W)
    ∧ (sideActive updH rgH = false →
        (fitStep updW updH rgW rgH beta gamma l1 l2 gW gH s).H = s.H)
    ∧ ((sideActive updW rgW = true ∨ sideActive updH rgH = true) →
        ∃ p, nmfFit updW updH rgW rgH beta tol alpha rho (t + 1) grads losses s
          = Except.ok p)
    ∧ (sideActive updW rgW = false → sideActive updH rgH = false →
        nmfFit updW updH rgW rgH beta tol alpha rho (t + 1) grads losses s
          = Except.error "UnboundLocalError: loss") := by
  refine ⟨fun hw => ?_, fun hh => ?_, fun hor => ?_, fun hw hh => ?_⟩
  · unfold fitStep
    simp only [hw, Bool.false_eq_true, if_false]
    split
    · rfl
    · rfl
  · unfold fitStep
    simp only [hh, Bool.false_eq_true, if_false]
    split
    · rfl
    · rfl
  · simp only [nmfFit]
    rw [if_neg (by rcases hor with h | h <;> simp [h])]
    exact ⟨_, rfl⟩
  · simp only [nmfFit]
    rw [if_pos ⟨hw, hh⟩]

theorem skip_sides_amended_witness :
    sideActive true (fun _ : Fin 1 => false) = false
    ∧ sideActive true (fun _ : Fin 1 => true) = true
    ∧ (fitStep true true (fun _ : Fin 1 => false) (fun _ : Fin 1 => true)
        2 1 0 0 0 0 onesState).W = onesState.W
    ∧ (fitStep true true (fun _ : Fin 1 => true) (fun _ : Fin 1 => false)
        2 1 0 0 0 0 onesState).H = onesState.H
    ∧ ∃ p, nmfFit true true (fun _ : Fin 1 => false) (fun _ : Fin 1 => true)
        2 0 0 0 1 (fun _ => (0, 0)) (fun _ => 1) onesState = Except.ok p :=
  ⟨by decide, by decide,
   (skip_sides_amended true true (fun _ => false) (fun _ => true) 2 1 0 0 0 0 0
     0 0 0 (fun _ => (0, 0)) (fun _ => 1) onesState).1 (by decide),
   (skip_sides_amended true true (fun _ => true) (fun _ => false) 2 1 0 0 0 0 0
     0 0 0 (fun _ => (0, 0)) (fun _ => 1) onesState).2.1 (by decide),
   (skip_sides_amended true true (fun _ => false) (fun _ => true) 2 1 0 0 0 0 0
     0 0 0 (fun _ => (0, 0)) (fun _ => 1) onesState).2.2.1 (Or.inr (by decide))⟩

/-- C10: with `max_iter = 0` the loop body of `fit` never runs, `n_iter` is
never assigned, and `return n_iter` raises an unbound-variable error instead of
returning an iteration count; `fit` returns normally exactly when
`max_iter ≥ 1` and at least one update side actually executes. -/
theorem fit_returns_iff {m k n : ℕ} (updW updH : Bool) (rgW : Fin m → Bool)
    (rgH : Fin k → Bool) (beta tol alpha rho : ℝ)
    (grads : ℕ → Matrix (Fin m) (Fin k) ℝ × Matrix (Fin k) (Fin n) ℝ)
    (losses : ℕ → ℝ) (s0 : NMFState m k n) :
    nmfFit updW updH rgW rgH beta tol alpha rho 0 grads losses s0
      = Except.error "UnboundLocalError: n_iter"
    ∧ ∀ maxIter, (∃ p, nmfFit updW updH rgW rgH beta tol alpha rho maxIter grads losses s0
          = Except.ok p)
        ↔ (1 ≤ maxIter ∧ (sideActive updW rgW = true ∨ sideActive updH rgH = true)) := by
  refine ⟨rfl, fun maxIter => ?_⟩
  cases maxIter with
  | zero =>
      constructor
      · rintro ⟨p, hp⟩
        exact Except.noConfusion hp
      · rintro ⟨h1, _⟩
        omega
  | succ t =>
      simp only [nmfFit]
      constructor
      · rintro ⟨p, hp⟩
        refine ⟨by omega, ?_⟩
        by_contra hno
        push_neg at hno
        rw [if_pos ⟨Bool.eq_false_iff.mpr (fun h => hno.1 h),
          Bool.eq_false_iff.mpr (fun h => hno.2 h)⟩] at hp
        exact Except.noConfusion hp
      · rintro ⟨_, hor⟩
        rw [if_neg (by rcases hor with h | h <;> simp [h])]
        exact ⟨_, rfl⟩

/-- C8: `NMFBase.__init__` performs no validation of supplied initial values:
with declared W shape `(2, 2)` and two initial blocks of shape `(1, 5)`,
construction returns the inconsistent blocks unchanged (there is no error path
in `__init__`), even though they are not consistent with the declared shape. -/
theorem init_no_shape_check :
    initBlockShapes [2, 2] (some [[1, 5], [1, 5]]) = [[1, 5], [1, 5]]
    ∧ ¬ consistentInit [2, 2] [[1, 5], [1, 5]] :=
  ⟨rfl, by decide⟩

end
